import Mathlib

/-!
Verification of the RFC 8785 (JCS) canonicalization-and-fingerprint core
described by this repository's specification, together with an embedding of
the example program `src/ops-stack/examples/example.rs`.

The repository ships only the example caller; the canonicalizer itself (the
`serde_jcs` / `sha2` / `hex` dependencies the example invokes) is not part of
`src/`.  The algorithmic core is therefore modelled here directly from the
specification: Value model, canonicalizer, number formatter, key sorter and
hasher.  The example's `TestData` structs and `serde_json` serialization are
embedded from the source file.
-/

instance {ε α : Type} [DecidableEq ε] [DecidableEq α] : DecidableEq (Except ε α)
  | .ok a, .ok b =>
      if h : a = b then isTrue (by rw [h]) else isFalse (fun hc => h (Except.ok.inj hc))
  | .ok _, .error _ => isFalse (fun hc => Except.noConfusion hc)
  | .error _, .ok _ => isFalse (fun hc => Except.noConfusion hc)
  | .error a, .error b =>
      if h : a = b then isTrue (by rw [h]) else isFalse (fun hc => h (Except.error.inj hc))

/-- Modelled from the spec: the error kinds of §7, `NonFiniteNumber` (Value
contains NaN/Infinity), `InvalidSurrogate` (string contains an unpaired UTF-16
surrogate) and `DuplicateKey` (defensive check of the unique-keys invariant). -/
inductive CanonicalizeError where
  | nonFiniteNumber : CanonicalizeError
  | invalidSurrogate : CanonicalizeError
  | duplicateKey : CanonicalizeError
deriving DecidableEq

/-- A UTF-16 string: the sequence of its 16-bit code units (each < 0x10000).
The spec's §3 String invariant ("must not contain unpaired surrogate code
points when represented via UTF-16 code units") and §4.4's code-unit sorting
are both phrased over this representation. -/
abbrev Utf16 := List Nat

/-- High (leading) surrogate code unit, U+D800 through U+DBFF. -/
def isHighSurrogate (c : Nat) : Bool := 0xD800 ≤ c && c ≤ 0xDBFF

/-- Low (trailing) surrogate code unit, U+DC00 through U+DFFF. -/
def isLowSurrogate (c : Nat) : Bool := 0xDC00 ≤ c && c ≤ 0xDFFF

/-- UTF-8 encoding of a Unicode scalar value, as a byte list. -/
def utf8Encode (c : Nat) : List Nat :=
  if c < 0x80 then [c]
  else if c < 0x800 then
    [0xC0 ||| (c >>> 6), 0x80 ||| (c &&& 0x3F)]
  else if c < 0x10000 then
    [0xE0 ||| (c >>> 12), 0x80 ||| ((c >>> 6) &&& 0x3F), 0x80 ||| (c &&& 0x3F)]
  else
    [0xF0 ||| (c >>> 18), 0x80 ||| ((c >>> 12) &&& 0x3F),
     0x80 ||| ((c >>> 6) &&& 0x3F), 0x80 ||| (c &&& 0x3F)]

/-- Lowercase hexadecimal digit (as an ASCII byte) of a value < 16. -/
def hexDigitByte (n : Nat) : Nat := if n < 10 then 48 + n else 87 + n

/-- Modelled from the spec: the §4.2 minimal RFC 8785 escape for one Unicode
scalar value: backslash and double quote escaped; the five named control
escapes; other C0 controls as lowercase `\u00xy`; everything else emitted as
literal UTF-8 bytes. -/
def escapeScalar (c : Nat) : List Nat :=
  if c = 0x5C then [0x5C, 0x5C]
  else if c = 0x22 then [0x5C, 0x22]
  else if c = 0x08 then [0x5C, 0x62]
  else if c = 0x09 then [0x5C, 0x74]
  else if c = 0x0A then [0x5C, 0x6E]
  else if c = 0x0C then [0x5C, 0x66]
  else if c = 0x0D then [0x5C, 0x72]
  else if c < 0x20 then [0x5C, 0x75, 0x30, 0x30, hexDigitByte (c / 16), hexDigitByte (c % 16)]
  else utf8Encode c

/-- Modelled from the spec: render the body of a JSON string from its UTF-16
code units.  Surrogate pairs are combined into a supplementary-plane scalar;
an unpaired surrogate fails with `InvalidSurrogate`; every scalar is emitted
through the minimal escape (`escapeScalar`). -/
def escapeUnits : Utf16 → Except CanonicalizeError (List Nat)
  | [] => .ok []
  | c :: rest =>
    if isHighSurrogate c then
      match rest with
      | c2 :: rest2 =>
        if isLowSurrogate c2 then do
          let tail ← escapeUnits rest2
          .ok (utf8Encode (0x10000 + (c - 0xD800) * 0x400 + (c2 - 0xDC00)) ++ tail)
        else .error .invalidSurrogate
      | [] => .error .invalidSurrogate
    else if isLowSurrogate c then .error .invalidSurrogate
    else do
      let tail ← escapeUnits rest
      .ok (escapeScalar c ++ tail)

/-- Modelled from the spec: an IEEE-754 double, as the canonicalizer observes
it.  A finite double is recorded by its sign and its shortest round-trip
decimal representation (§4.3, Glossary): `digits` is the shortest decimal
digit string (as a number, without trailing zeros except for zero itself) and
`pos` the position of the decimal point, so the value is
`(-1)^neg * digits * 10^(pos - digitCount digits)`.  NaN and the infinities
are the non-finite cases rejected by the canonicalizer. -/
inductive F64 where
  | nan : F64
  | posInf : F64
  | negInf : F64
  | finite (neg : Bool) (digits : Nat) (pos : Int) : F64
deriving DecidableEq

/-- Whether a double is finite (neither NaN nor an infinity). -/
def F64.isFinite : F64 → Bool
  | .finite _ _ _ => true
  | _ => false

/-- The double `-0.0`. -/
def F64.negZero : F64 := .finite true 0 0

/-- The double `1.0` (shortest decimal: digit 1, point after it). -/
def F64.one : F64 := .finite false 1 1

/-- The double `0.1` (shortest decimal: digit 1, point before it). -/
def F64.small : F64 := .finite false 1 0

/-- The double `1e21` (shortest decimal: digit 1 followed by 21 zeros). -/
def F64.big : F64 := .finite false 1 22

/-- The double `2.0`. -/
def F64.two : F64 := .finite false 2 1

/-- The double `3.0`. -/
def F64.three : F64 := .finite false 3 1

/-- A run of `n` zeros. -/
def zeroRun (n : Nat) : String := String.mk (List.replicate n '0')

/-- Modelled from the spec: the §4.3 Number Formatter.  Rejects NaN and the
infinities with `NonFiniteNumber`; formats `-0.0` as `0`; otherwise renders
the shortest round-trip decimal `digits * 10^(pos - k)` (`k` digits) with the
ECMA-262 `Number::toString` presentation rules: plain integer form when
`k ≤ pos ≤ 21`, plain decimal forms when `-6 < pos ≤ 21`, otherwise
exponential form with marker `e+`/`e-` and no leading zero in the exponent. -/
def formatNumber : F64 → Except CanonicalizeError String
  | .nan => .error .nonFiniteNumber
  | .posInf => .error .nonFiniteNumber
  | .negInf => .error .nonFiniteNumber
  | .finite neg digits pos =>
    if digits = 0 then .ok "0"
    else
      let ds := Nat.repr digits
      let k : Int := ds.length
      let body :=
        if k ≤ pos && pos ≤ 21 then ds ++ zeroRun (pos - k).toNat
        else if 0 < pos && pos ≤ 21 then ds.take pos.toNat ++ "." ++ ds.drop pos.toNat
        else if -6 < pos && pos ≤ 0 then "0." ++ zeroRun (-pos).toNat ++ ds
        else
          let mant := if ds.length = 1 then ds else ds.take 1 ++ "." ++ ds.drop 1
          let e := pos - 1
          mant ++ "e" ++ (if 0 ≤ e then "+" ++ Nat.repr e.toNat else "-" ++ Nat.repr (-e).toNat)
      .ok (if neg then "-" ++ body else body)

/-- The bytes of an ASCII string (used for the fixed literals and the number
formatter output, which are all ASCII). -/
def asciiBytes (s : String) : List Nat := s.data.map Char.toNat

/-- Lexicographic comparison of UTF-16 code-unit sequences (ascending), the
§4.4 Key Sorter order. -/
def unitsLe : Utf16 → Utf16 → Bool
  | [], _ => true
  | _ :: _, [] => false
  | a :: as, b :: bs => if a < b then true else if b < a then false else unitsLe as bs

/-- Modelled from the spec: the §3 Value model — a tagged union with the six
variants; objects carry their members in insertion order, which is not
semantically significant. -/
inductive Value where
  | null : Value
  | boolean (b : Bool) : Value
  | number (n : F64) : Value
  | string (s : Utf16) : Value
  | array (items : List Value) : Value
  | object (members : List (Utf16 × Value)) : Value

/-- An object member: key (UTF-16 code units) and value. -/
abbrev JMember := Utf16 × Value

/-- The §4.4 comparison on members: by key, UTF-16 code-unit order. -/
def memberLe (a b : JMember) : Prop := unitsLe a.1 b.1 = true

instance : DecidableRel memberLe := fun a b =>
  inferInstanceAs (Decidable (unitsLe a.1 b.1 = true))

/-- Modelled from the spec: the §4.4 Key Sorter, ordering object members by
their keys' UTF-16 code-unit sequences in ascending lexicographic order
(insertion sort). -/
def sortKeys (members : List JMember) : List JMember :=
  List.insertionSort memberLe members

/-- Whether a key list is duplicate-free (the §3 unique-keys invariant,
checked defensively per §7). -/
def keysNodup : List Utf16 → Bool
  | [] => true
  | k :: rest => !(rest.contains k) && keysNodup rest

mutual

/-- Sorting pass of the Canonicalizer: order the members of every object in
the tree by the Key Sorter (§4.3/§4.4).  Leaves, array element order and the
members themselves are untouched. -/
def sortDeep : Value → Value
  | .null => .null
  | .boolean b => .boolean b
  | .number n => .number n
  | .string s => .string s
  | .array items => .array (sortDeepItems items)
  | .object members => .object (sortKeys (sortDeepMembers members))

/-- `sortDeep` applied to each element of an array, preserving order. -/
def sortDeepItems : List Value → List Value
  | [] => []
  | v :: vs => sortDeep v :: sortDeepItems vs

/-- `sortDeep` applied to each member's value, preserving keys and order. -/
def sortDeepMembers : List JMember → List JMember
  | [] => []
  | (k, v) :: ms => (k, sortDeep v) :: sortDeepMembers ms

end

mutual

/-- Rendering pass of the Canonicalizer (§4.2), applied after the sorting
pass: emit the canonical UTF-8 byte sequence for a Value whose objects are
already key-sorted.  Literals for null and booleans, the Number Formatter for
numbers, the minimal string escape for strings, `[`/`,`/`]` around arrays in
element order, `\x7b`/`,`/`\x7d` around objects in stored (sorted) member
order.  Fails with `NonFiniteNumber` on a non-finite number, with
`InvalidSurrogate` on an unpaired surrogate, and with `DuplicateKey` when the
unique-keys invariant is violated (§7's defensive check); errors propagate
immediately, so a failing render produces no output at all. -/
def renderValue : Value → Except CanonicalizeError (List Nat)
  | .null => .ok (asciiBytes "null")
  | .boolean b => .ok (asciiBytes (if b then "true" else "false"))
  | .number n => do
      let s ← formatNumber n
      .ok (asciiBytes s)
  | .string s => do
      let b ← escapeUnits s
      .ok (34 :: b ++ [34])
  | .array items => do
      let rs ← renderItems items
      .ok (91 :: List.intercalate [44] rs ++ [93])
  | .object members =>
      if keysNodup (members.map Prod.fst) then do
        let rs ← renderMembers members
        .ok (123 :: List.intercalate [44] rs ++ [125])
      else .error .duplicateKey

/-- Canonical renderings of the elements of an array, in order. -/
def renderItems : List Value → Except CanonicalizeError (List (List Nat))
  | [] => .ok []
  | v :: vs => do
      let r ← renderValue v
      let rs ← renderItems vs
      .ok (r :: rs)

/-- Canonical renderings of object members, in order: each is the quoted
escaped key, `:`, and the member value's rendering. -/
def renderMembers : List JMember → Except CanonicalizeError (List (List Nat))
  | [] => .ok []
  | (k, v) :: ms => do
      let kb ← escapeUnits k
      let vb ← renderValue v
      let rs ← renderMembers ms
      .ok ((34 :: kb ++ [34] ++ 58 :: vb) :: rs)

end

/-- Modelled from the spec: the §4.2 Canonicalizer,
`canonicalize(Value) -> Result<CanonicalBytes, CanonicalizeError>`.  The
spec's recursive descent sorts each object's members and then renders them;
here that single descent is realised as the sorting pass `sortDeep` followed
by the rendering pass `renderValue`, which visits the same members in the
same (sorted) order and is therefore output- and error-equivalent. -/
def canonicalize (v : Value) : Except CanonicalizeError (List Nat) :=
  renderValue (sortDeep v)

example : canonicalize (.array [.null, .boolean true]) =
    .ok (asciiBytes "[null,true]") := by decide

example : canonicalize (.object [([122], .number .one), ([97], .number .two)]) =
    .ok (asciiBytes ("\x7b\"a\":2,\"z\":1\x7d")) := by decide

mutual

/-- Modelled from the spec: two Value trees are "the same logical value"
(§3, §4.1) when they are structurally equal with order-insensitive Object
members at every depth: equal leaves, arrays pointwise equivalent in order,
and objects whose members agree up to a permutation that matches members by
key and equates their values up to this same relation (realised here as a
pointwise key-preserving step `MembersEquiv` followed by a permutation). -/
inductive ValueEquiv : Value → Value → Prop where
  | null : ValueEquiv .null .null
  | boolean (b : Bool) : ValueEquiv (.boolean b) (.boolean b)
  | number (n : F64) : ValueEquiv (.number n) (.number n)
  | string (s : Utf16) : ValueEquiv (.string s) (.string s)
  | array {l₁ l₂ : List Value} : ItemsEquiv l₁ l₂ → ValueEquiv (.array l₁) (.array l₂)
  | object {m₁ m₂ m₃ : List JMember} :
      MembersEquiv m₁ m₃ → m₃.Perm m₂ → ValueEquiv (.object m₁) (.object m₂)

/-- Pointwise `ValueEquiv` on array elements: order is semantically
significant (§3), so elements correspond positionally. -/
inductive ItemsEquiv : List Value → List Value → Prop where
  | nil : ItemsEquiv [] []
  | cons {v₁ v₂ : Value} {l₁ l₂ : List Value} :
      ValueEquiv v₁ v₂ → ItemsEquiv l₁ l₂ → ItemsEquiv (v₁ :: l₁) (v₂ :: l₂)

/-- Pointwise `ValueEquiv` on object members: same keys in the same
positions, values equivalent. -/
inductive MembersEquiv : List JMember → List JMember → Prop where
  | nil : MembersEquiv [] []
  | cons {k : Utf16} {v₁ v₂ : Value} {m₁ m₂ : List JMember} :
      ValueEquiv v₁ v₂ → MembersEquiv m₁ m₂ →
      MembersEquiv ((k, v₁) :: m₁) ((k, v₂) :: m₂)

end

/-- Members related by equal keys and equal canonicalization of their
values. -/
def memberRM (a b : JMember) : Prop :=
  a.1 = b.1 ∧ canonicalize a.2 = canonicalize b.2

/-- Members related by equal keys and equal rendering of their values. -/
def renderRM (a b : JMember) : Prop :=
  a.1 = b.1 ∧ renderValue a.2 = renderValue b.2

/-! ## Hasher (§4.5)

The digest algorithm is the external SHA-256 primitive (§3: "32 bytes for
SHA-256"); it is reproduced here as a pure function over byte lists so that
`digest` and `fingerprint` are concrete. -/

/-- Truncation to a 32-bit word. -/
def w32 (n : Nat) : Nat := n % 4294967296

/-- Right rotation of a 32-bit word by `k` bits. -/
def rotr32 (x k : Nat) : Nat := w32 ((x >>> k) ||| (x <<< (32 - k)))

/-- SHA-256 σ0: rotr 7 xor rotr 18 xor shr 3. -/
def sSigma0 (x : Nat) : Nat := rotr32 x 7 ^^^ rotr32 x 18 ^^^ (x >>> 3)

/-- SHA-256 σ1: rotr 17 xor rotr 19 xor shr 10. -/
def sSigma1 (x : Nat) : Nat := rotr32 x 17 ^^^ rotr32 x 19 ^^^ (x >>> 10)

/-- SHA-256 Σ0: rotr 2 xor rotr 13 xor rotr 22. -/
def bSigma0 (x : Nat) : Nat := rotr32 x 2 ^^^ rotr32 x 13 ^^^ rotr32 x 22

/-- SHA-256 Σ1: rotr 6 xor rotr 11 xor rotr 25. -/
def bSigma1 (x : Nat) : Nat := rotr32 x 6 ^^^ rotr32 x 11 ^^^ rotr32 x 25

/-- SHA-256 choice function. -/
def sha256Ch (e f g : Nat) : Nat := (e &&& f) ^^^ ((e ^^^ 4294967295) &&& g)

/-- SHA-256 majority function. -/
def sha256Maj (a b c : Nat) : Nat := (a &&& b) ^^^ (a &&& c) ^^^ (b &&& c)

/-- The 64 SHA-256 round constants (the fractional parts of the cube roots
of the first 64 primes, as 32-bit words, here in decimal). -/
def sha256K : List Nat :=
  [1116352408, 1899447441, 3049323471, 3921009573,
   961987163, 1508970993, 2453635748, 2870763221,
   3624381080, 310598401, 607225278, 1426881987,
   1925078388, 2162078206, 2614888103, 3248222580,
   3835390401, 4022224774, 264347078, 604807628,
   770255983, 1249150122, 1555081692, 1996064986,
   2554220882, 2821834349, 2952996808, 3210313671,
   3336571891, 3584528711, 113926993, 338241895,
   666307205, 773529912, 1294757372, 1396182291,
   1695183700, 1986661051, 2177026350, 2456956037,
   2730485921, 2820302411, 3259730800, 3345764771,
   3516065817, 3600352804, 4094571909, 275423344,
   430227734, 506948616, 659060556, 883997877,
   958139571, 1322822218, 1537002063, 1747873779,
   1955562222, 2024104815, 2227730452, 2361852424,
   2428436474, 2756734187, 3204031479, 3329325298]

/-- The SHA-256 initial hash state (fractional parts of the square roots of
the first 8 primes, as 32-bit words, here in decimal). -/
def sha256H0 : List Nat :=
  [1779033703, 3144134277, 1013904242, 2773480762,
   1359893119, 2600822924, 528734635, 1541459225]

/-- Big-endian 32-bit words from a byte list (length a multiple of 4). -/
def bytesToWords : List Nat → List Nat
  | b0 :: b1 :: b2 :: b3 :: rest =>
      (b0 <<< 24 ||| b1 <<< 16 ||| b2 <<< 8 ||| b3) :: bytesToWords rest
  | _ => []

/-- Split a word list into 16-word blocks (length a multiple of 16). -/
def words16 : List Nat → List (List Nat)
  | w0 :: w1 :: w2 :: w3 :: w4 :: w5 :: w6 :: w7 ::
    w8 :: w9 :: w10 :: w11 :: w12 :: w13 :: w14 :: w15 :: rest =>
      [w0, w1, w2, w3, w4, w5, w6, w7, w8, w9, w10, w11, w12, w13, w14, w15]
        :: words16 rest
  | _ => []

/-- SHA-256 padding: append `0x80`, zeros to 56 mod 64, and the bit length as
eight big-endian bytes. -/
def sha256Pad (msg : List Nat) : List Nat :=
  let n := 8 * msg.length
  msg ++ 0x80 :: List.replicate ((119 - msg.length % 64) % 64) 0
      ++ [(n >>> 56) % 256, (n >>> 48) % 256, (n >>> 40) % 256, (n >>> 32) % 256,
          (n >>> 24) % 256, (n >>> 16) % 256, (n >>> 8) % 256, n % 256]

/-- Extend a 16-word block to the 64-word message schedule. -/
def sha256Schedule (blk : List Nat) : List Nat :=
  (List.range 48).foldl
    (fun w _ =>
      let t := w.length
      w ++ [w32 (sSigma1 (w.getD (t - 2) 0) + w.getD (t - 7) 0 +
                 sSigma0 (w.getD (t - 15) 0) + w.getD (t - 16) 0)])
    blk

/-- One SHA-256 compression round. -/
def sha256Round (w : List Nat) (st : List Nat) (i : Nat) : List Nat :=
  let a := st.getD 0 0
  let b := st.getD 1 0
  let c := st.getD 2 0
  let d := st.getD 3 0
  let e := st.getD 4 0
  let f := st.getD 5 0
  let g := st.getD 6 0
  let h := st.getD 7 0
  let t1 := w32 (h + bSigma1 e + sha256Ch e f g + sha256K.getD i 0 + w.getD i 0)
  let t2 := w32 (bSigma0 a + sha256Maj a b c)
  [w32 (t1 + t2), a, b, c, w32 (d + t1), e, f, g]

/-- Compress one 16-word block into the running hash state. -/
def sha256Block (st : List Nat) (blk : List Nat) : List Nat :=
  let w := sha256Schedule blk
  let st2 := (List.range 64).foldl (sha256Round w) st
  List.zipWith (fun x y => w32 (x + y)) st st2

/-- Modelled from the spec: the §4.5 Hasher's digest function,
`digest(CanonicalBytes) -> Digest` — SHA-256, a 32-byte digest of the
canonical bytes. -/
def digest (msg : List Nat) : List Nat :=
  let final := (words16 (bytesToWords (sha256Pad msg))).foldl sha256Block sha256H0
  final.flatMap fun w => [(w >>> 24) % 256, (w >>> 16) % 256, (w >>> 8) % 256, w % 256]

/-- Modelled from the spec: `toHex(Digest) -> string`, the lowercase
hexadecimal rendering of a digest (§4.5). -/
def toHex (bytes : List Nat) : String :=
  String.mk (bytes.flatMap fun b =>
    [Char.ofNat (hexDigitByte (b / 16)), Char.ofNat (hexDigitByte (b % 16))])

/-- Modelled from the spec: the composite convenience operation
`fingerprint(Value) -> Result<string, CanonicalizeError>` of §6:
canonicalize, digest, render as lowercase hex; a canonicalization error is
passed through unchanged. -/
def fingerprint (v : Value) : Except CanonicalizeError String := do
  let bytes ← canonicalize v
  .ok (toHex (digest bytes))

/-! ## Failure predicates

Decidable predicates naming the three failure conditions of §7, used to
characterise exactly when canonicalization fails. -/

mutual

/-- Whether the tree contains a `Number` whose double is NaN or infinite. -/
def hasNonFinite : Value → Bool
  | .null => false
  | .boolean _ => false
  | .number n => ! n.isFinite
  | .string _ => false
  | .array items => hasNonFiniteItems items
  | .object members => hasNonFiniteMembers members

/-- `hasNonFinite` over an array's elements. -/
def hasNonFiniteItems : List Value → Bool
  | [] => false
  | v :: vs => hasNonFinite v || hasNonFiniteItems vs

/-- `hasNonFinite` over object members' values. -/
def hasNonFiniteMembers : List JMember → Bool
  | [] => false
  | (_, v) :: ms => hasNonFinite v || hasNonFiniteMembers ms

end

mutual

/-- Whether the tree contains a string — as a value or as an object key —
holding an unpaired UTF-16 surrogate (i.e. one the escape pass rejects). -/
def hasBadString : Value → Bool
  | .null => false
  | .boolean _ => false
  | .number _ => false
  | .string s => ! (escapeUnits s).isOk
  | .array items => hasBadStringItems items
  | .object members => hasBadStringMembers members

/-- `hasBadString` over an array's elements. -/
def hasBadStringItems : List Value → Bool
  | [] => false
  | v :: vs => hasBadString v || hasBadStringItems vs

/-- `hasBadString` over object members (keys and values). -/
def hasBadStringMembers : List JMember → Bool
  | [] => false
  | (k, v) :: ms => ! (escapeUnits k).isOk || hasBadString v || hasBadStringMembers ms

end

mutual

/-- Whether the tree contains an object with duplicate member keys. -/
def hasDupKeys : Value → Bool
  | .null => false
  | .boolean _ => false
  | .number _ => false
  | .string _ => false
  | .array items => hasDupKeysItems items
  | .object members => ! keysNodup (members.map Prod.fst) || hasDupKeysMembers members

/-- `hasDupKeys` over an array's elements. -/
def hasDupKeysItems : List Value → Bool
  | [] => false
  | v :: vs => hasDupKeys v || hasDupKeysItems vs

/-- `hasDupKeys` over object members' values. -/
def hasDupKeysMembers : List JMember → Bool
  | [] => false
  | (_, v) :: ms => hasDupKeys v || hasDupKeysMembers ms

end

/-! ## Induction principle for `Value` -/

section ValueInduction

set_option linter.unusedSectionVars false

variable (P : Value → Prop)
variable (hnull : P .null) (hbool : ∀ b, P (.boolean b)) (hnum : ∀ n, P (.number n))
variable (hstr : ∀ s, P (.string s))
variable (harr : ∀ items, (∀ v ∈ items, P v) → P (.array items))
variable (hobj : ∀ members, (∀ m ∈ members, P m.2) → P (.object members))

include hnull hbool hnum hstr harr hobj in
mutual

/-- Structural induction over `Value` with membership hypotheses for the
composite variants. -/
theorem Value.inductionOn : ∀ v, P v
  | .null => hnull
  | .boolean b => hbool b
  | .number n => hnum n
  | .string s => hstr s
  | .array items => harr items (Value.inductionOnItems items)
  | .object members => hobj members (Value.inductionOnMembers members)

/-- `Value.inductionOn` lifted to array elements. -/
theorem Value.inductionOnItems : ∀ l : List Value, ∀ v ∈ l, P v
  | [] => by intro v hv; simp at hv
  | a :: l => by
      intro v hv
      rcases List.mem_cons.mp hv with h | h
      · exact h ▸ Value.inductionOn a
      · exact Value.inductionOnItems l v h

/-- `Value.inductionOn` lifted to object members' values. -/
theorem Value.inductionOnMembers : ∀ ml : List JMember, ∀ m ∈ ml, P m.2
  | [] => by intro m hm; simp at hm
  | a :: l => by
      intro m hm
      rcases List.mem_cons.mp hm with h | h
      · exact h ▸ Value.inductionOn a.2
      · exact Value.inductionOnMembers l m h

end

end ValueInduction

/-! ## The example program (`src/ops-stack/examples/example.rs`)

The example's structs, with their serde derives, and the `TestData` value
built in `main`.  `serde_json::to_string` serializes a struct's fields in
declaration order, applying `#[serde(rename = "testId")]` to `test_id`; a
map's entries are emitted in iteration order, after serde_json's check that
every map key serializes to a JSON string. -/

/-- The example's `Config` struct. -/
structure Config where
  environment : String
  version : String

/-- The example's `Nested` struct (`array: Vec<i32>`, `object:
HashMap<String, String>`; the HashMap's iteration order is arbitrary, so the
embedding keeps its entries as an association list in an arbitrary order). -/
structure Nested where
  array : List Int
  object : List (String × String)

/-- The example's `DataContent` struct. -/
structure DataContent where
  modules : List String
  config : Config
  nested : Nested

/-- The example's `TestData` struct; the Rust field `test_id` carries
`#[serde(rename = "testId")]`. -/
structure TestData where
  test_id : String
  timestamp : String
  data : DataContent

/-- A serde_json value (the subset the example produces). -/
inductive Json where
  | str (s : String) : Json
  | num (n : Int) : Json
  | arr (items : List Json) : Json
  | obj (members : List (String × Json)) : Json

/-- serde_json's map-key rule: each key of a serialized map must itself
serialize as a JSON string, otherwise `to_string` fails ("key must be a
string").  Keys are presented as already-serialized `Json` values. -/
def serializeMapEntries : List (Json × Json) → Except String (List (String × Json))
  | [] => .ok []
  | (.str k, v) :: rest => do
      let tail ← serializeMapEntries rest
      .ok ((k, v) :: tail)
  | (_, _) :: _ => .error "key must be a string"

/-- Serialization of `Config`: fields in declaration order. -/
def Config.toJson (c : Config) : Json :=
  .obj [("environment", .str c.environment), ("version", .str c.version)]

/-- Serialization of `Nested`: fields in declaration order; the
`HashMap<String, String>` goes through serde_json's map-key check. -/
def Nested.toJson (n : Nested) : Except String Json := do
  let entries ← serializeMapEntries (n.object.map fun e => (.str e.1, .str e.2))
  .ok (.obj [("array", .arr (n.array.map Json.num)), ("object", .obj entries)])

/-- Serialization of `DataContent`: fields in declaration order. -/
def DataContent.toJson (d : DataContent) : Except String Json := do
  let nested ← d.nested.toJson
  .ok (.obj [("modules", .arr (d.modules.map Json.str)),
             ("config", d.config.toJson), ("nested", nested)])

/-- Serialization of `TestData`: fields in declaration order, with `test_id`
renamed to `testId`. -/
def TestData.toJson (td : TestData) : Except String Json := do
  let data ← td.data.toJson
  .ok (.obj [("testId", .str td.test_id), ("timestamp", .str td.timestamp),
             ("data", data)])

/-- JSON string escaping as serde_json writes it: quote, backslash and the
C0 controls escaped (short forms for `\b \t \n \f \r`), lowercase-hex
`\uXXXX` for the other controls, everything else literal. -/
def jsonEscapeChar (c : Char) : List Char :=
  if c = '\\' then ['\\', '\\']
  else if c = '"' then ['\\', '"']
  else if c = Char.ofNat 8 then ['\\', 'b']
  else if c = '\t' then ['\\', 't']
  else if c = '\n' then ['\\', 'n']
  else if c = Char.ofNat 12 then ['\\', 'f']
  else if c = Char.ofNat 13 then ['\\', 'r']
  else if c.toNat < 0x20 then
    let hi := c.toNat / 16
    let lo := c.toNat % 16
    ['\\', 'u', '0', '0',
     if hi < 10 then Char.ofNat (48 + hi) else Char.ofNat (87 + hi),
     if lo < 10 then Char.ofNat (48 + lo) else Char.ofNat (87 + lo)]
  else [c]

/-- A JSON string literal as serde_json writes it. -/
def jsonWriteString (s : String) : String :=
  String.mk ('"' :: s.data.flatMap jsonEscapeChar ++ ['"'])

mutual

/-- Compact JSON writing, as `serde_json::to_string` renders a value: no
whitespace, fields and elements in stored order. -/
def jsonWrite : Json → String
  | .str s => jsonWriteString s
  | .num n => toString n
  | .arr items => "[" ++ jsonWriteItems items ++ "]"
  | .obj members => "\x7b" ++ jsonWriteMembers members ++ "\x7d"

/-- Comma-joined renderings of array elements. -/
def jsonWriteItems : List Json → String
  | [] => ""
  | [v] => jsonWrite v
  | v :: rest => jsonWrite v ++ "," ++ jsonWriteItems rest

/-- Comma-joined renderings of object members. -/
def jsonWriteMembers : List (String × Json) → String
  | [] => ""
  | [(k, v)] => jsonWriteString k ++ ":" ++ jsonWrite v
  | (k, v) :: rest => jsonWriteString k ++ ":" ++ jsonWrite v ++ "," ++ jsonWriteMembers rest

end

/-- `serde_json::to_string` for a `TestData` value: serialize (which can fail
only on the map-key check), then write compactly. -/
def serdeToString (td : TestData) : Except String String := do
  let j ← td.toJson
  .ok (jsonWrite j)

/-- The `TestData` value constructed in the example's `main` (lines 42–67),
parameterised by the iteration order `objOrder` in which the `object`
HashMap yields its three entries. -/
def mainTestData (objOrder : List (String × String)) : TestData :=
  { test_id := "golden-hash-test-v1"
    timestamp := "2024-01-01T00:00:00.000Z"
    data :=
      { modules := ["market-intelligence", "notifications", "automation",
                    "monetization", "ai-engine"]
        config := { environment := "test", version := "1.0.0" }
        nested := { array := [3, 1, 2], object := objOrder } } }

/-- The entries `main` inserts into the `object` HashMap, in insertion
order. -/
def mainObjectEntries : List (String × String) :=
  [("z", "last"), ("a", "first"), ("m", "middle")]

/-- The top-level member keys of a JSON object value. -/
def jsonTopKeys : Json → List String
  | .obj members => members.map Prod.fst
  | _ => []

/-! ## Order properties of the key comparison -/

theorem unitsLe_refl : ∀ a : Utf16, unitsLe a a = true := by
  intro a
  induction a with
  | nil => rfl
  | cons x xs ih => simp [unitsLe, ih]

theorem unitsLe_total : ∀ a b : Utf16, unitsLe a b = true ∨ unitsLe b a = true := by
  intro a
  induction a with
  | nil => intro b; left; rfl
  | cons x xs ih =>
      intro b
      cases b with
      | nil => right; rfl
      | cons y ys =>
          by_cases hxy : x < y
          · left; simp [unitsLe, hxy]
          · by_cases hyx : y < x
            · right; simp [unitsLe, hyx, Nat.lt_asymm hyx]
            · have hx : x = y := Nat.le_antisymm (Nat.le_of_not_lt hyx) (Nat.le_of_not_lt hxy)
              subst hx
              rcases ih ys with h | h
              · left; simp [unitsLe, h]
              · right; simp [unitsLe, h]

theorem unitsLe_trans :
    ∀ a b c : Utf16, unitsLe a b = true → unitsLe b c = true → unitsLe a c = true := by
  intro a
  induction a with
  | nil => intro b c _ _; rfl
  | cons x xs ih =>
      intro b c hab hbc
      cases b with
      | nil => simp [unitsLe] at hab
      | cons y ys =>
          cases c with
          | nil => simp [unitsLe] at hbc
          | cons z zs =>
              simp only [unitsLe] at hab hbc ⊢
              by_cases hxy : x < y
              · by_cases hyz : y < z
                · simp [Nat.lt_trans hxy hyz]
                · by_cases hzy : z < y
                  · simp [unitsLe, hyz, hzy] at hbc
                  · have : y = z :=
                      Nat.le_antisymm (Nat.le_of_not_lt hzy) (Nat.le_of_not_lt hyz)
                    subst this
                    simp [hxy]
              · by_cases hyx : y < x
                · simp [hxy, hyx] at hab
                · have hx : x = y :=
                    Nat.le_antisymm (Nat.le_of_not_lt hyx) (Nat.le_of_not_lt hxy)
                  subst hx
                  simp only [Nat.lt_irrefl, if_false, if_neg] at hab
                  by_cases hyz : x < z
                  · simp [hyz]
                  · by_cases hzy : z < x
                    · simp [hyz, hzy] at hbc
                    · have : x = z :=
                        Nat.le_antisymm (Nat.le_of_not_lt hzy) (Nat.le_of_not_lt hyz)
                      subst this
                      simp_all [unitsLe]
                      exact ih ys zs hab hbc

theorem unitsLe_antisymm :
    ∀ a b : Utf16, unitsLe a b = true → unitsLe b a = true → a = b := by
  intro a
  induction a with
  | nil =>
      intro b _ hba
      cases b with
      | nil => rfl
      | cons y ys => simp [unitsLe] at hba
  | cons x xs ih =>
      intro b hab hba
      cases b with
      | nil => simp [unitsLe] at hab
      | cons y ys =>
          simp only [unitsLe] at hab hba
          by_cases hxy : x < y
          · simp [hxy, Nat.lt_asymm hxy] at hba
          · by_cases hyx : y < x
            · simp [hxy, hyx] at hab
            · have hx : x = y :=
                Nat.le_antisymm (Nat.le_of_not_lt hyx) (Nat.le_of_not_lt hxy)
              subst hx
              simp only [Nat.lt_irrefl, if_false, if_neg] at hab hba
              rw [ih ys hab hba]

instance : IsTotal JMember memberLe := ⟨fun a b => unitsLe_total a.1 b.1⟩

instance : IsTrans JMember memberLe :=
  ⟨fun a b c hab hbc => unitsLe_trans a.1 b.1 c.1 hab hbc⟩

/-- Strict version of the member order: key strictly smaller (≤ and ≠). -/
def memberLt (a b : JMember) : Prop := memberLe a b ∧ a.1 ≠ b.1

instance : IsAntisymm JMember memberLt :=
  ⟨fun a b hab hba => absurd (unitsLe_antisymm a.1 b.1 hab.1 hba.1) hab.2⟩

theorem sortKeys_perm (l : List JMember) : (sortKeys l).Perm l :=
  List.perm_insertionSort memberLe l

theorem sortKeys_sorted (l : List JMember) : List.Sorted memberLe (sortKeys l) :=
  List.sorted_insertionSort memberLe l

theorem keysNodup_iff : ∀ ks : List Utf16, keysNodup ks = true ↔ ks.Nodup := by
  intro ks
  induction ks with
  | nil => simp [keysNodup]
  | cons k rest ih =>
      simp [keysNodup, ih, List.contains, List.elem_iff]

theorem sorted_lt_of_sorted_le_nodup {l : List JMember}
    (hs : List.Sorted memberLe l) (hnd : (l.map Prod.fst).Nodup) :
    List.Sorted memberLt l := by
  have hne : l.Pairwise (fun a b : JMember => a.1 ≠ b.1) :=
    List.pairwise_map.mp hnd
  exact List.Pairwise.imp₂ (fun a b h₁ h₂ => ⟨h₁, h₂⟩) hs hne

/-- Two permutations of the same member list with duplicate-free keys sort to
the same sequence. -/
theorem sortKeys_eq_of_perm {l₁ l₂ : List JMember} (h : l₁.Perm l₂)
    (hnd : (l₁.map Prod.fst).Nodup) : sortKeys l₁ = sortKeys l₂ := by
  have hperm : (sortKeys l₁).Perm (sortKeys l₂) :=
    ((sortKeys_perm l₁).trans h).trans (sortKeys_perm l₂).symm
  have hnd₁ : ((sortKeys l₁).map Prod.fst).Nodup :=
    (((sortKeys_perm l₁).map Prod.fst).nodup_iff).mpr hnd
  have hnd₂ : ((sortKeys l₂).map Prod.fst).Nodup :=
    ((hperm.map Prod.fst).nodup_iff).mp hnd₁
  exact List.eq_of_perm_of_sorted hperm
    (sorted_lt_of_sorted_le_nodup (sortKeys_sorted l₁) hnd₁)
    (sorted_lt_of_sorted_le_nodup (sortKeys_sorted l₂) hnd₂)

/-! ## The sorting pass: shape and invariance lemmas -/

theorem list_any_perm {α : Type} {l₁ l₂ : List α} (h : l₁.Perm l₂) (p : α → Bool) :
    l₁.any p = l₂.any p := by
  rw [Bool.eq_iff_iff]
  simp only [List.any_eq_true]
  constructor
  · rintro ⟨x, hx, hp⟩; exact ⟨x, h.mem_iff.mp hx, hp⟩
  · rintro ⟨x, hx, hp⟩; exact ⟨x, h.mem_iff.mpr hx, hp⟩

theorem list_any_congr {α : Type} {l : List α} {p q : α → Bool}
    (h : ∀ x ∈ l, p x = q x) : l.any p = l.any q := by
  induction l with
  | nil => rfl
  | cons a l ih =>
      simp only [List.any_cons]
      rw [h a (List.mem_cons_self a l), ih fun x hx => h x (List.mem_cons_of_mem a hx)]

theorem keysNodup_perm {ks₁ ks₂ : List Utf16} (h : ks₁.Perm ks₂) :
    keysNodup ks₁ = keysNodup ks₂ := by
  rw [Bool.eq_iff_iff, keysNodup_iff, keysNodup_iff]
  exact h.nodup_iff

theorem sortDeepItems_eq_map : ∀ l, sortDeepItems l = l.map sortDeep
  | [] => rfl
  | v :: vs => by simp [sortDeepItems, sortDeepItems_eq_map vs]

theorem sortDeepMembers_eq_map :
    ∀ l, sortDeepMembers l = l.map fun m => (m.1, sortDeep m.2)
  | [] => rfl
  | (k, v) :: ms => by simp [sortDeepMembers, sortDeepMembers_eq_map ms]

theorem map_fst_sortDeepMembers (l : List JMember) :
    (sortDeepMembers l).map Prod.fst = l.map Prod.fst := by
  rw [sortDeepMembers_eq_map, List.map_map]
  rfl

theorem hasNonFiniteItems_eq_any : ∀ l, hasNonFiniteItems l = l.any hasNonFinite
  | [] => rfl
  | v :: vs => by simp [hasNonFiniteItems, hasNonFiniteItems_eq_any vs]

theorem hasNonFiniteMembers_eq_any :
    ∀ l, hasNonFiniteMembers l = l.any fun m => hasNonFinite m.2
  | [] => rfl
  | (k, v) :: ms => by simp [hasNonFiniteMembers, hasNonFiniteMembers_eq_any ms]

theorem hasBadStringItems_eq_any : ∀ l, hasBadStringItems l = l.any hasBadString
  | [] => rfl
  | v :: vs => by simp [hasBadStringItems, hasBadStringItems_eq_any vs]

theorem hasBadStringMembers_eq_any :
    ∀ l, hasBadStringMembers l = l.any fun m => !(escapeUnits m.1).isOk || hasBadString m.2
  | [] => rfl
  | (k, v) :: ms => by
      simp [hasBadStringMembers, hasBadStringMembers_eq_any ms, Bool.or_assoc]

theorem hasDupKeysItems_eq_any : ∀ l, hasDupKeysItems l = l.any hasDupKeys
  | [] => rfl
  | v :: vs => by simp [hasDupKeysItems, hasDupKeysItems_eq_any vs]

theorem hasDupKeysMembers_eq_any :
    ∀ l, hasDupKeysMembers l = l.any fun m => hasDupKeys m.2
  | [] => rfl
  | (k, v) :: ms => by simp [hasDupKeysMembers, hasDupKeysMembers_eq_any ms]

theorem sortDeep_hasNonFinite : ∀ v, hasNonFinite (sortDeep v) = hasNonFinite v := by
  refine Value.inductionOn _ rfl (fun _ => rfl) (fun _ => rfl) (fun _ => rfl) ?_ ?_
  · intro items ih
    simp only [sortDeep, hasNonFinite, sortDeepItems_eq_map, hasNonFiniteItems_eq_any,
      List.any_map]
    exact list_any_congr fun v hv => ih v hv
  · intro members ih
    simp only [sortDeep, hasNonFinite, hasNonFiniteMembers_eq_any]
    rw [list_any_perm (sortKeys_perm (sortDeepMembers members)) _,
      sortDeepMembers_eq_map, List.any_map]
    exact list_any_congr fun m hm => ih m hm

theorem sortDeep_hasBadString : ∀ v, hasBadString (sortDeep v) = hasBadString v := by
  refine Value.inductionOn _ rfl (fun _ => rfl) (fun _ => rfl) (fun _ => rfl) ?_ ?_
  · intro items ih
    simp only [sortDeep, hasBadString, sortDeepItems_eq_map, hasBadStringItems_eq_any,
      List.any_map]
    exact list_any_congr fun v hv => ih v hv
  · intro members ih
    simp only [sortDeep, hasBadString, hasBadStringMembers_eq_any]
    rw [list_any_perm (sortKeys_perm (sortDeepMembers members)) _,
      sortDeepMembers_eq_map, List.any_map]
    refine list_any_congr fun m hm => ?_
    simp [ih m hm]

theorem sortDeep_hasDupKeys : ∀ v, hasDupKeys (sortDeep v) = hasDupKeys v := by
  refine Value.inductionOn _ rfl (fun _ => rfl) (fun _ => rfl) (fun _ => rfl) ?_ ?_
  · intro items ih
    simp only [sortDeep, hasDupKeys, sortDeepItems_eq_map, hasDupKeysItems_eq_any,
      List.any_map]
    exact list_any_congr fun v hv => ih v hv
  · intro members ih
    simp only [sortDeep, hasDupKeys, hasDupKeysMembers_eq_any]
    have hkeys : keysNodup ((sortKeys (sortDeepMembers members)).map Prod.fst) =
        keysNodup (members.map Prod.fst) := by
      rw [keysNodup_perm ((sortKeys_perm (sortDeepMembers members)).map Prod.fst),
        map_fst_sortDeepMembers]
    rw [hkeys, list_any_perm (sortKeys_perm (sortDeepMembers members)) _,
      sortDeepMembers_eq_map, List.any_map]
    have : (members.any fun m => hasDupKeys (sortDeep m.2)) =
        members.any fun m => hasDupKeys m.2 :=
      list_any_congr fun m hm => ih m hm
    rw [show ((fun m : JMember => hasDupKeys m.2) ∘ fun m : JMember => (m.1, sortDeep m.2)) =
      fun m : JMember => hasDupKeys (sortDeep m.2) from rfl, this]

/-! ## Exactly when rendering succeeds -/

theorem except_isOk_ok {ε α : Type} (a : α) : (Except.ok a : Except ε α).isOk = true := rfl

theorem except_isOk_error {ε α : Type} (e : ε) :
    (Except.error e : Except ε α).isOk = false := rfl

theorem except_bind_isOk {ε α β : Type} (e₁ : Except ε α) (f : α → β) :
    (do
      let a ← e₁
      Except.ok (f a) : Except ε β).isOk = e₁.isOk := by
  cases e₁ <;> rfl

theorem except_bind2_isOk {ε α β γ : Type} (e₁ : Except ε α) (e₂ : Except ε β)
    (f : α → β → γ) :
    (do
      let a ← e₁
      let b ← e₂
      Except.ok (f a b) : Except ε γ).isOk = (e₁.isOk && e₂.isOk) := by
  cases e₁ <;> cases e₂ <;> rfl

theorem except_bind3_isOk {ε α β γ δ : Type} (e₁ : Except ε α) (e₂ : Except ε β)
    (e₃ : Except ε γ) (f : α → β → γ → δ) :
    (do
      let a ← e₁
      let b ← e₂
      let c ← e₃
      Except.ok (f a b c) : Except ε δ).isOk = (e₁.isOk && e₂.isOk && e₃.isOk) := by
  cases e₁ <;> cases e₂ <;> cases e₃ <;> rfl

theorem formatNumber_isOk (n : F64) : (formatNumber n).isOk = n.isFinite := by
  cases n <;> simp only [formatNumber, F64.isFinite, except_isOk_error]
  split <;> rfl

theorem renderItems_isOk_of :
    ∀ l : List Value,
      (∀ v ∈ l, (renderValue v).isOk =
        (!hasNonFinite v && !hasBadString v && !hasDupKeys v)) →
      (renderItems l).isOk =
        (!hasNonFiniteItems l && !hasBadStringItems l && !hasDupKeysItems l) := by
  intro l
  induction l with
  | nil => intro _; rfl
  | cons v vs ih =>
      intro hmem
      have hv := hmem v (List.mem_cons_self v vs)
      have hvs := ih fun x hx => hmem x (List.mem_cons_of_mem v hx)
      simp only [renderItems, hasNonFiniteItems, hasBadStringItems, hasDupKeysItems]
      rw [except_bind2_isOk, hv, hvs]
      cases hasNonFinite v <;> cases hasBadString v <;> cases hasDupKeys v <;>
        cases hasNonFiniteItems vs <;> cases hasBadStringItems vs <;>
        cases hasDupKeysItems vs <;> rfl

theorem renderMembers_isOk_of :
    ∀ ml : List JMember,
      (∀ m ∈ ml, (renderValue m.2).isOk =
        (!hasNonFinite m.2 && !hasBadString m.2 && !hasDupKeys m.2)) →
      (renderMembers ml).isOk =
        (!hasNonFiniteMembers ml && !hasBadStringMembers ml && !hasDupKeysMembers ml) := by
  intro ml
  induction ml with
  | nil => intro _; rfl
  | cons m ms ih =>
      intro hmem
      obtain ⟨k, v⟩ := m
      have hv := hmem (k, v) (List.mem_cons_self (k, v) ms)
      have hms := ih fun x hx => hmem x (List.mem_cons_of_mem (k, v) hx)
      simp only [renderMembers, hasNonFiniteMembers, hasBadStringMembers, hasDupKeysMembers]
      rw [except_bind3_isOk, hv, hms]
      cases (escapeUnits k).isOk <;> cases hasNonFinite v <;> cases hasBadString v <;>
        cases hasDupKeys v <;> cases hasNonFiniteMembers ms <;>
        cases hasBadStringMembers ms <;> cases hasDupKeysMembers ms <;> rfl

theorem renderValue_isOk :
    ∀ v, (renderValue v).isOk = (!hasNonFinite v && !hasBadString v && !hasDupKeys v) := by
  refine Value.inductionOn _ rfl (fun b => by cases b <;> rfl) ?_ ?_ ?_ ?_
  · intro n
    simp only [renderValue, hasNonFinite, hasBadString, hasDupKeys]
    rw [except_bind_isOk, formatNumber_isOk]
    cases n.isFinite <;> rfl
  · intro s
    simp only [renderValue, hasNonFinite, hasBadString, hasDupKeys]
    rw [except_bind_isOk]
    cases (escapeUnits s).isOk <;> rfl
  · intro items ih
    simp only [renderValue, hasNonFinite, hasBadString, hasDupKeys]
    rw [except_bind_isOk, renderItems_isOk_of items ih]
  · intro members ih
    simp only [renderValue, hasNonFinite, hasBadString, hasDupKeys]
    cases hk : keysNodup (members.map Prod.fst)
    · simp [except_isOk_error]
    · simp only [if_true]
      rw [except_bind_isOk, renderMembers_isOk_of members ih]
      simp

/-! ## Which error a failing render reports -/

theorem except_ok_bind {ε α β : Type} (a : α) (f : α → Except ε β) :
    (Except.ok a : Except ε α) >>= f = f a := rfl

theorem except_error_bind {ε α β : Type} (er : ε) (f : α → Except ε β) :
    (Except.error er : Except ε α) >>= f = .error er := rfl

theorem escapeUnits_error : ∀ s e, escapeUnits s = .error e → e = .invalidSurrogate
  | [], e => fun h => by simp [escapeUnits] at h
  | [c], e => fun h => by
      by_cases hh : isHighSurrogate c
      · simp only [escapeUnits, hh, Bool.false_eq_true, if_true, if_false] at h
        exact (Except.error.inj h).symm
      · by_cases hl : isLowSurrogate c
        · simp only [escapeUnits, hh, hl, Bool.false_eq_true, if_true, if_false] at h
          exact (Except.error.inj h).symm
        · simp only [escapeUnits, hh, hl, Bool.false_eq_true, if_true, if_false] at h
          rw [except_ok_bind] at h
          simp at h
  | c :: c2 :: rest2, e => fun h => by
      by_cases hh : isHighSurrogate c
      · by_cases hl : isLowSurrogate c2
        · simp only [escapeUnits, hh, hl, Bool.false_eq_true, if_true, if_false] at h
          cases hrec : escapeUnits rest2 with
          | ok tail => rw [hrec, except_ok_bind] at h; simp at h
          | error e2 =>
              rw [hrec, except_error_bind] at h
              exact Except.error.inj h ▸ escapeUnits_error rest2 e2 hrec
        · simp only [escapeUnits, hh, hl, Bool.false_eq_true, if_true, if_false] at h
          exact (Except.error.inj h).symm
      · by_cases hl : isLowSurrogate c
        · simp only [escapeUnits, hh, hl, Bool.false_eq_true, if_true, if_false] at h
          exact (Except.error.inj h).symm
        · simp only [escapeUnits, hh, hl, Bool.false_eq_true, if_true, if_false] at h
          cases hrec : escapeUnits (c2 :: rest2) with
          | ok tail => rw [hrec, except_ok_bind] at h; simp at h
          | error e2 =>
              rw [hrec, except_error_bind] at h
              exact Except.error.inj h ▸ escapeUnits_error (c2 :: rest2) e2 hrec

theorem formatNumber_error : ∀ n e, formatNumber n = .error e → e = .nonFiniteNumber := by
  intro n e
  cases n with
  | nan => intro h; exact (Except.error.inj h).symm
  | posInf => intro h; exact (Except.error.inj h).symm
  | negInf => intro h; exact (Except.error.inj h).symm
  | finite neg digits pos =>
      intro h
      simp only [formatNumber] at h
      split at h <;> simp at h

theorem renderItems_error_of :
    ∀ (l : List Value) (e : CanonicalizeError),
      renderItems l = .error e → ∃ v ∈ l, renderValue v = .error e := by
  intro l
  induction l with
  | nil => intro e h; simp [renderItems] at h
  | cons v vs ih =>
      intro e h
      simp only [renderItems] at h
      cases hv : renderValue v with
      | error e1 =>
          rw [hv, except_error_bind] at h
          exact ⟨v, List.mem_cons_self v vs, Except.error.inj h ▸ hv⟩
      | ok r =>
          rw [hv, except_ok_bind] at h
          cases hvs : renderItems vs with
          | error e2 =>
              rw [hvs, except_error_bind] at h
              obtain ⟨w, hw, hwe⟩ := ih e2 hvs
              exact ⟨w, List.mem_cons_of_mem v hw, Except.error.inj h ▸ hwe⟩
          | ok rs => rw [hvs, except_ok_bind] at h; simp at h

theorem renderMembers_error_of :
    ∀ (ml : List JMember) (e : CanonicalizeError),
      renderMembers ml = .error e →
      ∃ m ∈ ml, escapeUnits m.1 = .error e ∨ renderValue m.2 = .error e := by
  intro ml
  induction ml with
  | nil => intro e h; simp [renderMembers] at h
  | cons m ms ih =>
      intro e h
      obtain ⟨k, v⟩ := m
      simp only [renderMembers] at h
      cases hk : escapeUnits k with
      | error e1 =>
          rw [hk, except_error_bind] at h
          exact ⟨(k, v), List.mem_cons_self (k, v) ms, Or.inl (Except.error.inj h ▸ hk)⟩
      | ok kb =>
          rw [hk, except_ok_bind] at h
          cases hv : renderValue v with
          | error e2 =>
              rw [hv, except_error_bind] at h
              exact ⟨(k, v), List.mem_cons_self (k, v) ms, Or.inr (Except.error.inj h ▸ hv)⟩
          | ok vb =>
              rw [hv, except_ok_bind] at h
              cases hms : renderMembers ms with
              | error e3 =>
                  rw [hms, except_error_bind] at h
                  obtain ⟨w, hw, hwe⟩ := ih e3 hms
                  exact ⟨w, List.mem_cons_of_mem (k, v) hw, Except.error.inj h ▸ hwe⟩
              | ok rs => rw [hms, except_ok_bind] at h; simp at h

theorem renderValue_error_cause :
    ∀ v e, renderValue v = .error e →
      (e = .invalidSurrogate → hasBadString v = true) ∧
      (e = .duplicateKey → hasDupKeys v = true) := by
  refine Value.inductionOn _ ?_ ?_ ?_ ?_ ?_ ?_
  · intro e h; simp [renderValue] at h
  · intro b e h; cases b <;> simp [renderValue] at h
  · intro n e h
    simp only [renderValue] at h
    cases hf : formatNumber n with
    | ok s => rw [hf, except_ok_bind] at h; simp at h
    | error e1 =>
        rw [hf, except_error_bind] at h
        have h1 : e1 = .nonFiniteNumber := formatNumber_error n e1 hf
        have h2 : e1 = e := Except.error.inj h
        subst h2; subst h1
        exact ⟨(fun hc => nomatch hc), (fun hc => nomatch hc)⟩
  · intro s e h
    simp only [renderValue] at h
    cases hesc : escapeUnits s with
    | ok b => rw [hesc, except_ok_bind] at h; simp at h
    | error e1 =>
        rw [hesc, except_error_bind] at h
        have h2 : e1 = e := Except.error.inj h
        subst h2
        refine ⟨fun _ => ?_, fun hc => ?_⟩
        · simp [hasBadString, hesc, except_isOk_error]
        · rw [escapeUnits_error s e1 hesc] at hc; cases hc
  · intro items ih e h
    simp only [renderValue] at h
    cases hri : renderItems items with
    | ok rs => rw [hri, except_ok_bind] at h; simp at h
    | error e1 =>
        rw [hri, except_error_bind] at h
        have h2 : e1 = e := Except.error.inj h
        subst h2
        obtain ⟨v, hv, hve⟩ := renderItems_error_of items e1 hri
        have hcause := ih v hv e1 hve
        refine ⟨fun hc => ?_, fun hc => ?_⟩
        · simp only [hasBadString, hasBadStringItems_eq_any]
          exact List.any_eq_true.mpr ⟨v, hv, hcause.1 hc⟩
        · simp only [hasDupKeys, hasDupKeysItems_eq_any]
          exact List.any_eq_true.mpr ⟨v, hv, hcause.2 hc⟩
  · intro members ih e h
    simp only [renderValue] at h
    cases hk : keysNodup (members.map Prod.fst) with
    | false =>
        rw [hk] at h
        simp only [Bool.false_eq_true, if_false] at h
        have h2 : CanonicalizeError.duplicateKey = e := Except.error.inj h
        subst h2
        refine ⟨(fun hc => nomatch hc), fun _ => ?_⟩
        simp [hasDupKeys, hk]
    | true =>
        rw [hk] at h
        simp only [if_true] at h
        cases hrm : renderMembers members with
        | ok rs => rw [hrm, except_ok_bind] at h; simp at h
        | error e1 =>
            rw [hrm, except_error_bind] at h
            have h2 : e1 = e := Except.error.inj h
            subst h2
            obtain ⟨m, hm, hcase⟩ := renderMembers_error_of members e1 hrm
            refine ⟨fun hc => ?_, fun hc => ?_⟩
            · simp only [hasBadString, hasBadStringMembers_eq_any]
              refine List.any_eq_true.mpr ⟨m, hm, ?_⟩
              rcases hcase with hkey | hval
              · simp [hkey, except_isOk_error]
              · simp [(ih m hm e1 hval).1 hc]
            · simp only [hasDupKeys, hasDupKeysMembers_eq_any]
              rcases hcase with hkey | hval
              · rw [escapeUnits_error m.1 e1 hkey] at hc; cases hc
              · have hany : (members.any fun m => hasDupKeys m.2) = true :=
                  List.any_eq_true.mpr ⟨m, hm, (ih m hm e1 hval).2 hc⟩
                simp [hany]

/-- Exactly when canonicalization succeeds: no non-finite number, no string
with an unpaired surrogate, no object with duplicate keys. -/
theorem canonicalize_isOk (v : Value) :
    (canonicalize v).isOk = (!hasNonFinite v && !hasBadString v && !hasDupKeys v) := by
  unfold canonicalize
  rw [renderValue_isOk, sortDeep_hasNonFinite, sortDeep_hasBadString, sortDeep_hasDupKeys]

theorem canonicalize_error_cause (v : Value) (e : CanonicalizeError)
    (h : canonicalize v = .error e) :
    (e = .invalidSurrogate → hasBadString v = true) ∧
    (e = .duplicateKey → hasDupKeys v = true) := by
  have hc := renderValue_error_cause (sortDeep v) e h
  rwa [sortDeep_hasBadString, sortDeep_hasDupKeys] at hc

/-- With the other two failure conditions ruled out, a tree containing a
non-finite number canonicalizes to exactly the `NonFiniteNumber` error. -/
theorem canonicalize_nonFinite (v : Value) (hnf : hasNonFinite v = true)
    (hbs : hasBadString v = false) (hdk : hasDupKeys v = false) :
    canonicalize v = .error .nonFiniteNumber := by
  have hok : (canonicalize v).isOk = false := by
    rw [canonicalize_isOk, hnf, hbs, hdk]
    rfl
  cases hc : canonicalize v with
  | ok r => rw [hc, except_isOk_ok] at hok; cases hok
  | error e =>
      have hca := canonicalize_error_cause v e hc
      cases e with
      | nonFiniteNumber => rfl
      | invalidSurrogate => rw [hca.1 rfl] at hbs; cases hbs
      | duplicateKey => rw [hca.2 rfl] at hdk; cases hdk

/-! ## Arrays, fingerprints and the example's serialization -/

theorem keysNodup_eq_false {ks : List Utf16} (h : ¬ ks.Nodup) : keysNodup ks = false := by
  cases hk : keysNodup ks
  · rfl
  · exact absurd ((keysNodup_iff ks).mp hk) h

theorem renderItems_eq_mapM : ∀ l : List Value, renderItems l = l.mapM renderValue := by
  intro l
  induction l with
  | nil => rfl
  | cons v vs ih => rw [List.mapM_cons, ← ih]; rfl

theorem mapM_renderValue_sortDeep (items : List Value) :
    (items.map sortDeep).mapM renderValue = items.mapM canonicalize := by
  induction items with
  | nil => rfl
  | cons v vs ih =>
      rw [List.map_cons, List.mapM_cons, List.mapM_cons, ih]
      rfl

theorem serializeMapEntries_str (l : List (String × String)) :
    serializeMapEntries (l.map fun e => (Json.str e.1, Json.str e.2)) =
      .ok (l.map fun e => (e.1, Json.str e.2)) := by
  induction l with
  | nil => rfl
  | cons e rest ih =>
      rw [List.map_cons, List.map_cons]
      simp only [serializeMapEntries, ih, except_ok_bind]

theorem TestData.toJson_eq (td : TestData) :
    td.toJson = .ok (.obj
      [("testId", .str td.test_id), ("timestamp", .str td.timestamp),
       ("data", .obj
         [("modules", .arr (td.data.modules.map Json.str)),
          ("config", td.data.config.toJson),
          ("nested", .obj
            [("array", .arr (td.data.nested.array.map Json.num)),
             ("object", .obj (td.data.nested.object.map fun e =>
               (e.1, Json.str e.2)))])])]) := by
  unfold TestData.toJson DataContent.toJson Nested.toJson
  rw [serializeMapEntries_str]
  rfl


/-! ## Canonicalization respects logical equality -/

theorem orderedInsert_forall₂ {a a' : JMember} (hab : renderRM a a') :
    ∀ {l l' : List JMember}, List.Forall₂ renderRM l l' →
      List.Forall₂ renderRM (l.orderedInsert memberLe a) (l'.orderedInsert memberLe a') := by
  intro l l' h
  induction h with
  | nil => exact List.Forall₂.cons hab List.Forall₂.nil
  | cons hbb hll ih =>
      rename_i b b' tl tl'
      simp only [List.orderedInsert]
      by_cases hle : memberLe a b
      · have hle2 : memberLe a' b' := by
          unfold memberLe at hle ⊢
          rw [← hab.1, ← hbb.1]
          exact hle
        rw [if_pos hle, if_pos hle2]
        exact List.Forall₂.cons hab (List.Forall₂.cons hbb hll)
      · have hle2 : ¬ memberLe a' b' := by
          unfold memberLe at hle ⊢
          rw [← hab.1, ← hbb.1]
          exact hle
        rw [if_neg hle, if_neg hle2]
        exact List.Forall₂.cons hbb ih

theorem sortKeys_forall₂ :
    ∀ {l l' : List JMember}, List.Forall₂ renderRM l l' →
      List.Forall₂ renderRM (sortKeys l) (sortKeys l') := by
  intro l l' h
  induction h with
  | nil => exact List.Forall₂.nil
  | cons hbb hll ih => exact orderedInsert_forall₂ hbb ih

theorem renderMembers_congr :
    ∀ {ml ml' : List JMember}, List.Forall₂ renderRM ml ml' →
      renderMembers ml = renderMembers ml' := by
  intro ml ml' h
  induction h with
  | nil => rfl
  | cons hbb hll ih =>
      rename_i b b' tl tl'
      obtain ⟨k, v⟩ := b
      obtain ⟨k2, v2⟩ := b'
      obtain ⟨hk, hv⟩ := hbb
      cases hk
      simp only [renderMembers]
      rw [hv, ih]

theorem forall₂_map_fst :
    ∀ {ml ml' : List JMember}, List.Forall₂ renderRM ml ml' →
      ml.map Prod.fst = ml'.map Prod.fst := by
  intro ml ml' h
  induction h with
  | nil => rfl
  | cons hbb hll ih => rw [List.map_cons, List.map_cons, hbb.1, ih]

theorem renderObject_congr {ml ml' : List JMember}
    (h : List.Forall₂ renderRM ml ml') :
    renderValue (.object ml) = renderValue (.object ml') := by
  simp only [renderValue]
  rw [forall₂_map_fst h, renderMembers_congr h]

/-- Key-preserving pointwise equality of members' canonical forms is a
congruence for object canonicalization. -/
theorem canonicalize_object_congr {m₁ m₃ : List JMember}
    (h : List.Forall₂ memberRM m₁ m₃) :
    canonicalize (.object m₁) = canonicalize (.object m₃) := by
  show renderValue (.object (sortKeys (sortDeepMembers m₁))) =
    renderValue (.object (sortKeys (sortDeepMembers m₃)))
  refine renderObject_congr (sortKeys_forall₂ ?_)
  induction h with
  | nil => exact List.Forall₂.nil
  | cons hbb hll ih =>
      rename_i b b' tl tl'
      obtain ⟨k, v⟩ := b
      obtain ⟨k2, v2⟩ := b'
      exact List.Forall₂.cons ⟨hbb.1, hbb.2⟩ ih

/-- Permuting the member list of an object leaves canonicalization
unchanged: equal sorted member lists when keys are duplicate-free, the same
`DuplicateKey` error otherwise. -/
theorem canonicalize_object_perm :
    ∀ l₁ l₂ : List JMember, l₁.Perm l₂ →
      canonicalize (.object l₁) = canonicalize (.object l₂) := by
  intro l₁ l₂ hp
  show renderValue (sortDeep (.object l₁)) = renderValue (sortDeep (.object l₂))
  have hmap : (sortDeepMembers l₁).Perm (sortDeepMembers l₂) := by
    rw [sortDeepMembers_eq_map, sortDeepMembers_eq_map]
    exact hp.map _
  by_cases hnd : (l₁.map Prod.fst).Nodup
  · have heq : sortKeys (sortDeepMembers l₁) = sortKeys (sortDeepMembers l₂) :=
      sortKeys_eq_of_perm hmap (by rw [map_fst_sortDeepMembers]; exact hnd)
    simp only [sortDeep, heq]
  · have hnd₂ : ¬ (l₂.map Prod.fst).Nodup := fun hc =>
      hnd ((hp.map Prod.fst).nodup_iff.mpr hc)
    have k₁ : keysNodup ((sortKeys (sortDeepMembers l₁)).map Prod.fst) = false := by
      rw [keysNodup_perm ((sortKeys_perm (sortDeepMembers l₁)).map Prod.fst),
        map_fst_sortDeepMembers]
      exact keysNodup_eq_false hnd
    have k₂ : keysNodup ((sortKeys (sortDeepMembers l₂)).map Prod.fst) = false := by
      rw [keysNodup_perm ((sortKeys_perm (sortDeepMembers l₂)).map Prod.fst),
        map_fst_sortDeepMembers]
      exact keysNodup_eq_false hnd₂
    simp only [sortDeep, renderValue, k₁, k₂, Bool.false_eq_true, if_false]

/-- Canonicalization of an array as a bind over the canonicalizations of its
items, in order. -/
theorem canonicalize_array_eq (items : List Value) :
    canonicalize (.array items) =
      (items.mapM canonicalize) >>=
        (fun rs => Except.ok (91 :: List.intercalate [44] rs ++ [93])) := by
  show renderValue (sortDeep (.array items)) = _
  simp only [sortDeep, renderValue, sortDeepItems_eq_map, renderItems_eq_mapM,
    mapM_renderValue_sortDeep]

mutual

/-- Canonicalization respects the spec's logical equality: equivalent Value
trees (structurally equal, ignoring object member order at every depth)
produce identical results. -/
theorem valueEquiv_canonicalize :
    ∀ {v₁ v₂ : Value}, ValueEquiv v₁ v₂ → canonicalize v₁ = canonicalize v₂
  | _, _, .null => rfl
  | _, _, .boolean _ => rfl
  | _, _, .number _ => rfl
  | _, _, .string _ => rfl
  | _, _, .array hl => by
      rw [canonicalize_array_eq, canonicalize_array_eq, itemsEquiv_mapM hl]
  | _, _, .object hpt hperm =>
      (canonicalize_object_congr (membersEquiv_forall₂ hpt)).trans
        (canonicalize_object_perm _ _ hperm)

/-- `valueEquiv_canonicalize` lifted pointwise over array elements. -/
theorem itemsEquiv_mapM :
    ∀ {l₁ l₂ : List Value}, ItemsEquiv l₁ l₂ →
      l₁.mapM canonicalize = l₂.mapM canonicalize
  | _, _, .nil => rfl
  | _, _, .cons hv hl => by
      rw [List.mapM_cons, List.mapM_cons, valueEquiv_canonicalize hv,
        itemsEquiv_mapM hl]

/-- `valueEquiv_canonicalize` lifted pointwise over object members. -/
theorem membersEquiv_forall₂ :
    ∀ {m₁ m₂ : List JMember}, MembersEquiv m₁ m₂ → List.Forall₂ memberRM m₁ m₂
  | _, _, .nil => List.Forall₂.nil
  | _, _, .cons hv hm =>
      List.Forall₂.cons ⟨rfl, valueEquiv_canonicalize hv⟩ (membersEquiv_forall₂ hm)

end

/-! ## The claims -/

/-- C1: canonicalization is deterministic with respect to object member
insertion order: permuting the members of an Object before canonicalization
yields the identical result, and more generally any two Value trees that are
the same logical value — structurally equal ignoring object member order at
every depth (`ValueEquiv`) — canonicalize to byte-identical output (and to
the same error on failure). -/
theorem canonicalize_object_order_independence :
    (∀ l₁ l₂ : List JMember, l₁.Perm l₂ →
      canonicalize (.object l₁) = canonicalize (.object l₂)) ∧
    (∀ v₁ v₂ : Value, ValueEquiv v₁ v₂ → canonicalize v₁ = canonicalize v₂) :=
  ⟨canonicalize_object_perm, fun _ _ h => valueEquiv_canonicalize h⟩

/-- C1 witness: a two-member object rendered in both insertion orders, two
trees differing only in a nested object's member order, and the resulting
canonical bytes evaluated. -/
theorem canonicalize_object_order_independence_witness :
    canonicalize (.object [([122], .number F64.one), ([97], .number F64.two)]) =
      canonicalize (.object [([97], .number F64.two), ([122], .number F64.one)]) ∧
    canonicalize (.object
        [([97], .object [([98], .number F64.one), ([99], .number F64.two)])]) =
      canonicalize (.object
        [([97], .object [([99], .number F64.two), ([98], .number F64.one)])]) ∧
    canonicalize (.object
        [([97], .object [([98], .number F64.one), ([99], .number F64.two)])]) =
      .ok (asciiBytes "\x7b\"a\":\x7b\"b\":1,\"c\":2\x7d\x7d") :=
  ⟨canonicalize_object_order_independence.1 _ _
      (List.Perm.swap (α := JMember) ([97], Value.number F64.two)
        ([122], Value.number F64.one) []),
    canonicalize_object_order_independence.2 _ _
      (ValueEquiv.object
        (MembersEquiv.cons
          (ValueEquiv.object
            (MembersEquiv.cons (ValueEquiv.number F64.one)
              (MembersEquiv.cons (ValueEquiv.number F64.two) MembersEquiv.nil))
            (List.Perm.swap (α := JMember) ([99], Value.number F64.two)
              ([98], Value.number F64.one) []))
          MembersEquiv.nil)
        (List.Perm.refl _)),
    by decide⟩

/-- C2: the composite fingerprint is exactly the lowercase-hex rendering of
the digest of the canonical bytes, and a canonicalization error propagates
unchanged. -/
theorem fingerprint_eq_toHex_digest_canonicalize (v : Value) :
    fingerprint v = (canonicalize v).map fun bytes => toHex (digest bytes) := by
  cases hc : canonicalize v with
  | ok b => simp [fingerprint, hc, except_ok_bind, Except.map]
  | error e => simp [fingerprint, hc, except_error_bind, Except.map]

/-- C3: object members are emitted in ascending UTF-16 code-unit order of
their keys: the Key Sorter's output is sorted under `memberLe`,
canonicalization renders exactly that sorted member list, and the object with
keys z, a, m canonicalizes with members ordered a, m, z. -/
theorem canonicalize_sorts_object_keys :
    (∀ members : List JMember, List.Sorted memberLe (sortKeys members)) ∧
    (∀ members : List JMember,
      canonicalize (.object members) =
        renderValue (.object (sortKeys (sortDeepMembers members)))) ∧
    canonicalize (.object
        [([122], .number F64.one), ([97], .number F64.two), ([109], .number F64.three)]) =
      .ok (asciiBytes "\x7b\"a\":2,\"m\":3,\"z\":1\x7d") :=
  ⟨sortKeys_sorted, fun _ => rfl, by decide⟩

/-- C4: the Number Formatter's ECMA-262 edge cases: `-0.0` renders as `0`,
`1.0` as `1`, `0.1` as `0.1`, and `1e21` in exponential form as `1e+21`
(lowercase marker, explicit `+`, no leading zero in the exponent). -/
theorem formatNumber_ecma_edge_cases :
    formatNumber F64.negZero = .ok "0" ∧ formatNumber F64.one = .ok "1" ∧
    formatNumber F64.small = .ok "0.1" ∧ formatNumber F64.big = .ok "1e+21" :=
  ⟨rfl, rfl, rfl, rfl⟩

/-- C5: strings use the minimal RFC 8785 escape set: every scalar value at or
above U+0020 other than quote and backslash is emitted as its literal UTF-8
bytes (never escaped); U+0001 escapes to `\u0001`, newline to `\n`, é
(U+00E9) to its two literal UTF-8 bytes, and backslash and quote to their
two-character escapes, inside a double-quoted rendering. -/
theorem canonicalize_string_minimal_escapes :
    (∀ c : Nat, 0x20 ≤ c → c ≠ 0x22 → c ≠ 0x5C → escapeScalar c = utf8Encode c) ∧
    canonicalize (.string [0x01]) = .ok (asciiBytes "\"\\u0001\"") ∧
    canonicalize (.string [0x0A]) = .ok (asciiBytes "\"\\n\"") ∧
    canonicalize (.string [0xE9]) = .ok [34, 0xC3, 0xA9, 34] ∧
    canonicalize (.string [92]) = .ok (asciiBytes "\"\\\\\"") ∧
    canonicalize (.string [34]) = .ok (asciiBytes "\"\\\"\"") := by
  refine ⟨?_, by decide, by decide, by decide, by decide, by decide⟩
  intro c h1 h2 h3
  simp only [escapeScalar]
  rw [if_neg h3, if_neg h2, if_neg (by omega), if_neg (by omega), if_neg (by omega),
    if_neg (by omega), if_neg (by omega), if_neg (by omega)]

/-- C5 witness: the general no-escape clause applied at é (U+00E9). -/
theorem canonicalize_string_minimal_escapes_witness :
    escapeScalar 0xE9 = utf8Encode 0xE9 :=
  canonicalize_string_minimal_escapes.1 0xE9 (by decide) (by decide) (by decide)

/-- C6 counterexample: a Value containing a NaN Number need not fail with
`NonFiniteNumber` — if an unpaired surrogate string precedes the NaN in the
render, the `InvalidSurrogate` error is reported instead. -/
theorem canonicalize_nonfinite_counterexample :
    hasNonFinite (.array [.string [0xD800], .number .nan]) = true ∧
    canonicalize (.array [.string [0xD800], .number .nan]) = .error .invalidSurrogate ∧
    canonicalize (.array [.string [0xD800], .number .nan]) ≠ .error .nonFiniteNumber := by
  refine ⟨by decide, by decide, by decide⟩

/-- C6 amended: a Value containing a NaN or infinite Number, and containing
no unpaired-surrogate string and no duplicate-key object, canonicalizes to
exactly the `NonFiniteNumber` error (and hence no output is produced). -/
theorem canonicalize_nonfinite_amended (v : Value) (hnf : hasNonFinite v = true)
    (hbs : hasBadString v = false) (hdk : hasDupKeys v = false) :
    canonicalize v = .error .nonFiniteNumber :=
  canonicalize_nonFinite v hnf hbs hdk

/-- C6 witness: the amended theorem applied to a bare NaN Number. -/
theorem canonicalize_nonfinite_amended_witness :
    canonicalize (.number F64.nan) = .error .nonFiniteNumber :=
  canonicalize_nonfinite_amended (.number F64.nan) (by decide) (by decide) (by decide)

/-- C7 counterexample: an input with neither a non-finite number nor an
unpaired surrogate can still fail — an object with duplicate keys fails with
the defensive `DuplicateKey` error, so those two conditions are not the whole
failure set. -/
theorem canonicalize_failure_set_counterexample :
    canonicalize (.object [([97], .null), ([97], .null)]) = .error .duplicateKey ∧
    hasNonFinite (.object [([97], .null), ([97], .null)]) = false ∧
    hasBadString (.object [([97], .null), ([97], .null)]) = false := by
  refine ⟨by decide, by decide, by decide⟩

/-- C7 amended: canonicalization (a total Lean function, hence terminating on
every finite acyclic Value tree) succeeds exactly when the tree contains no
non-finite Number, no string with an unpaired surrogate, and no object with
duplicate keys — so it returns an error only under one of those three
conditions. -/
theorem canonicalize_failure_set_amended (v : Value) :
    (canonicalize v).isOk = (!hasNonFinite v && !hasBadString v && !hasDupKeys v) :=
  canonicalize_isOk v

/-- C8: arrays preserve element order verbatim: the canonical form of an
array is `[`, the canonical renderings of its items in the array's own order
joined by `,`, then `]`; the empty array renders as `[]`. -/
theorem canonicalize_array_order_preserved :
    (∀ items : List Value,
      canonicalize (.array items) =
        (items.mapM canonicalize).map fun rs => 91 :: List.intercalate [44] rs ++ [93]) ∧
    canonicalize (.array []) = .ok (asciiBytes "[]") := by
  constructor
  · intro items
    rw [canonicalize_array_eq]
    cases items.mapM canonicalize <;> rfl
  · decide

/-- C9: serializing any TestData value produces a JSON object whose member
keys are exactly `testId`, `timestamp`, `data` in that order: `test_id` is
renamed by its serde attribute and struct fields serialize in declaration
order. -/
theorem testData_serialization_keys (td : TestData) :
    (td.toJson).map jsonTopKeys = .ok ["testId", "timestamp", "data"] := by
  rw [TestData.toJson_eq]
  rfl

/-- C10: `serde_json::to_string` on the TestData value built in the example's
`main` returns Ok for every iteration order of its HashMap field, so the
`unwrap` on the result never panics. -/
theorem serdeToString_main_ok (objOrder : List (String × String)) :
    (serdeToString (mainTestData objOrder)).isOk = true := by
  unfold serdeToString
  rw [TestData.toJson_eq]
  rfl
